import Mathlib

/-!
Verification of the subtitle-segmentation core of AssemblyAI-Video-to-SRT.

The program's core (`create_speaker_srt`, SRT generation part, and
`format_srt_time`) is shallowly embedded below.  Timestamps are the
word-level millisecond integers delivered by the transcription service;
the Python float arithmetic `(a - b) / 1000` on those integers is embedded
as exact rational arithmetic over `ℚ`.
-/

/-- A timestamped word as delivered by the transcription service:
`text`, `start` and `end` in milliseconds. -/
structure Word where
  text : String
  start : Nat
  «end» : Nat
deriving DecidableEq, Repr, Inhabited

/-- One emitted subtitle block: its 1-based index, start and end in seconds
(exact rationals standing for the Python floats `ms / 1000`), and its text. -/
structure Cue where
  index : Nat
  start : ℚ
  «end» : ℚ
  text : String
deriving DecidableEq, Repr, Inhabited

/-- Constant `MAX_PAUSE_S = 0.7` from the source. -/
def MAX_PAUSE_S : ℚ := 7 / 10

/-- Constant `MAX_CHARS = 80` from the source. -/
def MAX_CHARS : Nat := 80

/-- Constant `MAX_DURATION_S = 7` from the source. -/
def MAX_DURATION_S : ℚ := 7

/-- The expression `" ".join(w.text for w in ws)` from the source. -/
def joinTexts (ws : List Word) : String :=
  String.intercalate " " (ws.map fun w => w.text)

/-- The three or-combined break tests of the loop body (source lines 173-186):
pause since the previous word's end, candidate text length, and block
duration measured from the first word of the current block.  `false` when the
current block is empty (that case is handled before the tests in the source). -/
def shouldStartNewBlock (current_block_words : List Word) (word : Word) : Bool :=
  match current_block_words with
  | [] => false
  | first :: tail =>
    let prev_word := List.getLastD tail first
    let pause_duration : ℚ := ((word.start : ℚ) - (prev_word.«end» : ℚ)) / 1000
    let current_text := joinTexts (first :: tail)
    let block_duration : ℚ := ((word.«end» : ℚ) - (first.start : ℚ)) / 1000
    decide (pause_duration ≥ MAX_PAUSE_S) ||
      decide (current_text.length + word.text.length + 1 > MAX_CHARS) ||
      decide (block_duration ≥ MAX_DURATION_S)

/-- Emission of one cue from a (nonempty) closed block (source lines 188-196
and 202-210): start = first word's start / 1000, end = last word's end / 1000,
text = space-joined block texts, index = the running counter. -/
def cueOfBlock (srt_counter : Nat) (b : List Word) : Cue :=
  { index := srt_counter
    start := ((List.headD b default).start : ℚ) / 1000
    «end» := ((List.getLastD b default).«end» : ℚ) / 1000
    text := joinTexts b }

/-- The main loop of the SRT generation (source lines 166-210), with the
words still to process, the current open block, and the running counter as
explicit state; returns the emitted cues in order. -/
def segmentLoop : List Word → List Word → Nat → List Cue
  | [], current_block_words, srt_counter =>
    match current_block_words with
    | [] => []
    | first :: tail => [cueOfBlock srt_counter (first :: tail)]
  | word :: rest, current_block_words, srt_counter =>
    match current_block_words with
    | [] => segmentLoop rest [word] srt_counter
    | first :: tail =>
      if shouldStartNewBlock (first :: tail) word then
        cueOfBlock srt_counter (first :: tail) ::
          segmentLoop rest [word] (srt_counter + 1)
      else
        segmentLoop rest ((first :: tail) ++ [word]) srt_counter

/-- The same loop, recording the closed blocks (the groups of words
underlying the emitted cues) instead of the rendered cues. -/
def segmentBlocks : List Word → List Word → List (List Word)
  | [], current_block_words =>
    match current_block_words with
    | [] => []
    | first :: tail => [first :: tail]
  | word :: rest, current_block_words =>
    match current_block_words with
    | [] => segmentBlocks rest [word]
    | first :: tail =>
      if shouldStartNewBlock (first :: tail) word then
        (first :: tail) :: segmentBlocks rest [word]
      else
        segmentBlocks rest ((first :: tail) ++ [word])

/-- The segmenter as a whole (source lines 161-210): empty open block,
counter starting at 1. -/
def create_speaker_srt_cues (words : List Word) : List Cue :=
  segmentLoop words [] 1

/-- Python `int(.)`: truncation toward zero. -/
def pyInt (q : ℚ) : ℤ := if q < 0 then ⌈q⌉ else ⌊q⌋

/-- Python's `f"{n:0Wd}"`: decimal rendering zero-padded to width `W`,
the zeros inserted after the sign. -/
def intPad (width : Nat) (n : ℤ) : String :=
  let digits := toString n.natAbs
  let sign := if n < 0 then "-" else ""
  let zeros := String.mk (List.replicate (width - (digits.length + sign.length)) '0')
  sign ++ zeros ++ digits

/-- Function `format_srt_time` (source lines 14-22): seconds (a float, embedded as an
exact rational) to `HH:MM:SS,mmm`.  Python's `//` and `%` on ints are floor
division and floor modulus, hence `Int.fdiv` / `Int.fmod`. -/
def format_srt_time (seconds : ℚ) : String :=
  let millisec : ℤ := pyInt ((seconds - (pyInt seconds : ℚ)) * 1000)
  let seconds1 : ℤ := pyInt seconds
  let minutes : ℤ := Int.fdiv seconds1 60
  let seconds2 : ℤ := Int.fmod seconds1 60
  let hours : ℤ := Int.fdiv minutes 60
  let minutes2 : ℤ := Int.fmod minutes 60
  intPad 2 hours ++ ":" ++ intPad 2 minutes2 ++ ":" ++ intPad 2 seconds2 ++
    "," ++ intPad 3 millisec

/-- Pause trigger transcribed from the specification text:
`(w.start − prev.end) / 1000 ≥ max_pause_seconds` with the default 0.7. -/
def specPauseTrigger (prev w : Word) : Prop :=
  ((w.start : ℚ) - (prev.«end» : ℚ)) / 1000 ≥ 7 / 10

/-- Length trigger transcribed from the specification text: the candidate
text (space-join of the group's texts, a space, then `w.text`) exceeds the
default 80 characters. -/
def specLengthTrigger (group : List Word) (w : Word) : Prop :=
  (joinTexts group ++ " " ++ w.text).length > 80

/-- Duration trigger transcribed from the specification text:
`(w.end − group[0].start) / 1000 ≥ max_duration_seconds` with the default 7. -/
def specDurationTrigger (first w : Word) : Prop :=
  ((w.«end» : ℚ) - (first.start : ℚ)) / 1000 ≥ 7

/-- The cues produced from a list of closed blocks with a running counter:
links `segmentLoop` to `segmentBlocks`. -/
def cuesOfBlocks : Nat → List (List Word) → List Cue
  | _, [] => []
  | c, b :: bs => cueOfBlock c b :: cuesOfBlocks (c + 1) bs

/-! ### Helper lemmas -/

theorem intercalate_go_append (s acc : String) (l : List String) (x : String) :
    String.intercalate.go acc s (l ++ [x]) = String.intercalate.go acc s l ++ s ++ x := by
  induction l generalizing acc with
  | nil => rfl
  | cons a as ih =>
    show String.intercalate.go (acc ++ s ++ a) s (as ++ [x]) = _
    rw [ih]
    rfl

theorem intercalate_append_singleton (s : String) (l : List String) (x : String)
    (h : l ≠ []) :
    String.intercalate s (l ++ [x]) = String.intercalate s l ++ s ++ x := by
  cases l with
  | nil => exact absurd rfl h
  | cons a as =>
    show String.intercalate.go a s (as ++ [x]) = _
    rw [intercalate_go_append]
    rfl

theorem joinTexts_append_singleton (l : List Word) (w : Word) (h : l ≠ []) :
    joinTexts (l ++ [w]) = joinTexts l ++ " " ++ w.text := by
  unfold joinTexts
  rw [List.map_append]
  exact intercalate_append_singleton " " (l.map fun w => w.text) w.text (by simpa using h)

theorem joinTexts_length_append (l : List Word) (w : Word) (h : l ≠ []) :
    (joinTexts (l ++ [w])).length = (joinTexts l).length + 1 + w.text.length := by
  rw [joinTexts_append_singleton l w h, String.length_append, String.length_append]
  rfl

theorem getLast?_cons_eq (f : Word) (t : List Word) :
    (f :: t).getLast? = some (t.getLastD f) := by
  induction t generalizing f with
  | nil => rfl
  | cons x xs ih =>
    rw [List.getLast?_cons_cons, ih, List.getLastD_cons]

theorem segmentBlocks_flatten (ws : List Word) :
    ∀ cur : List Word, (segmentBlocks ws cur).flatten = cur ++ ws := by
  induction ws with
  | nil =>
    intro cur
    cases cur <;> simp [segmentBlocks]
  | cons w rest ih =>
    intro cur
    cases cur with
    | nil => simpa [segmentBlocks] using ih [w]
    | cons f t =>
      by_cases hb : shouldStartNewBlock (f :: t) w = true
      · simp [segmentBlocks, hb, ih [w]]
      · rw [segmentBlocks, if_neg hb]
        simpa using ih ((f :: t) ++ [w])

theorem segmentBlocks_ne_nil (ws : List Word) :
    ∀ cur : List Word, ∀ b ∈ segmentBlocks ws cur, b ≠ [] := by
  induction ws with
  | nil =>
    intro cur b hb
    cases cur with
    | nil => simp [segmentBlocks] at hb
    | cons f t =>
      simp [segmentBlocks] at hb
      simp [hb]
  | cons w rest ih =>
    intro cur b hb
    cases cur with
    | nil => exact ih [w] b (by simpa [segmentBlocks] using hb)
    | cons f t =>
      by_cases hs : shouldStartNewBlock (f :: t) w = true
      · rw [segmentBlocks, if_pos hs] at hb
        rcases List.mem_cons.mp hb with h | h
        · simp [h]
        · exact ih [w] b h
      · rw [segmentBlocks, if_neg hs] at hb
        exact ih ((f :: t) ++ [w]) b hb

theorem segmentLoop_eq_cuesOfBlocks (ws : List Word) :
    ∀ (cur : List Word) (c : Nat),
      segmentLoop ws cur c = cuesOfBlocks c (segmentBlocks ws cur) := by
  induction ws with
  | nil =>
    intro cur c
    cases cur <;> rfl
  | cons w rest ih =>
    intro cur c
    cases cur with
    | nil => exact ih [w] c
    | cons f t =>
      by_cases hs : shouldStartNewBlock (f :: t) w = true
      · rw [segmentLoop, if_pos hs, segmentBlocks, if_pos hs]
        show _ = cueOfBlock c (f :: t) :: cuesOfBlocks (c + 1) (segmentBlocks rest [w])
        rw [ih [w] (c + 1)]
      · rw [segmentLoop, if_neg hs, segmentBlocks, if_neg hs]
        exact ih ((f :: t) ++ [w]) c

theorem cuesOfBlocks_length (c : Nat) (bs : List (List Word)) :
    (cuesOfBlocks c bs).length = bs.length := by
  induction bs generalizing c with
  | nil => rfl
  | cons b bs ih => simp [cuesOfBlocks, ih]

theorem cuesOfBlocks_map_index (c : Nat) (bs : List (List Word)) :
    (cuesOfBlocks c bs).map (fun cue => cue.index) = List.range' c bs.length := by
  induction bs generalizing c with
  | nil => rfl
  | cons b bs ih => simp [cuesOfBlocks, List.range', cueOfBlock, ih]

theorem cuesOfBlocks_get (c : Nat) (bs : List (List Word)) :
    ∀ (i : Nat) (h : i < (cuesOfBlocks c bs).length) (h' : i < bs.length),
      (cuesOfBlocks c bs).get ⟨i, h⟩ = cueOfBlock (c + i) (bs.get ⟨i, h'⟩) := by
  induction bs generalizing c with
  | nil => intro i h h'; exact absurd h' (by simp)
  | cons b bs ih =>
    intro i h h'
    cases i with
    | zero => simp [cuesOfBlocks]
    | succ j =>
      have hj : j < (cuesOfBlocks (c + 1) bs).length := by
        have := h
        simpa [cuesOfBlocks] using this
      have hj' : j < bs.length := by simpa using h'
      show (cuesOfBlocks (c + 1) bs).get ⟨j, hj⟩ = _
      rw [ih (c + 1) j hj hj']
      congr 1
      omega

theorem mem_cuesOfBlocks (c : Nat) (bs : List (List Word)) (cue : Cue)
    (h : cue ∈ cuesOfBlocks c bs) :
    ∃ b ∈ bs, ∃ i, cue = cueOfBlock i b := by
  induction bs generalizing c with
  | nil => simp [cuesOfBlocks] at h
  | cons b bs ih =>
    rcases List.mem_cons.mp h with h0 | h0
    · exact ⟨b, by simp, c, h0⟩
    · rcases ih (c + 1) h0 with ⟨b', hb', i, hi⟩
      exact ⟨b', by simp [hb'], i, hi⟩

theorem segmentLoop_head_start (ws : List Word) :
    ∀ (f : Word) (t : List Word) (c : Nat),
      (segmentLoop ws (f :: t) c).head?.map (fun cue => cue.start) =
        some ((f.start : ℚ) / 1000) := by
  induction ws with
  | nil => intro f t c; rfl
  | cons w rest ih =>
    intro f t c
    by_cases hs : shouldStartNewBlock (f :: t) w = true
    · rw [segmentLoop, if_pos hs]
      rfl
    · rw [segmentLoop, if_neg hs]
      exact ih f (t ++ [w]) c

/-! ### Claim theorems -/

theorem shouldStartNewBlock_eq_true_iff (f : Word) (t : List Word) (w : Word) :
    shouldStartNewBlock (f :: t) w = true ↔
      (((w.start : ℚ) - ((t.getLastD f).«end» : ℚ)) / 1000 ≥ MAX_PAUSE_S ∨
        (joinTexts (f :: t)).length + w.text.length + 1 > MAX_CHARS ∨
        ((w.«end» : ℚ) - (f.start : ℚ)) / 1000 ≥ MAX_DURATION_S) := by
  unfold shouldStartNewBlock
  simp only [Bool.or_eq_true, decide_eq_true_eq, or_assoc]

theorem specLengthTrigger_iff (g : List Word) (w : Word) :
    specLengthTrigger g w ↔ (joinTexts g).length + w.text.length + 1 > MAX_CHARS := by
  unfold specLengthTrigger MAX_CHARS
  rw [String.length_append, String.length_append]
  have hsp : (" " : String).length = 1 := rfl
  rw [hsp]
  omega

/-- C1: for a non-empty current group, a break is forced before word `w`
if and only if the pause trigger, the length trigger, or the duration
trigger fires; when a trigger fires the loop closes the group as a cue and
seeds a new group with `w`, otherwise it appends `w` to the group. -/
theorem claim1_break_iff_triggers (f : Word) (t : List Word) (w : Word)
    (rest : List Word) (c : Nat) :
    (shouldStartNewBlock (f :: t) w = true ↔
      (specPauseTrigger (t.getLastD f) w ∨ specLengthTrigger (f :: t) w ∨
        specDurationTrigger f w)) ∧
    segmentLoop (w :: rest) (f :: t) c =
      (if shouldStartNewBlock (f :: t) w then
        cueOfBlock c (f :: t) :: segmentLoop rest [w] (c + 1)
      else
        segmentLoop rest ((f :: t) ++ [w]) c) := by
  constructor
  · rw [shouldStartNewBlock_eq_true_iff, specLengthTrigger_iff]
    rfl
  · by_cases hs : shouldStartNewBlock (f :: t) w = true
    · rw [segmentLoop, if_pos hs]
    · rw [segmentLoop, if_neg hs]

/-- C2: each emitted cue has start = its group's first word's start in
seconds, end = its group's last word's end in seconds, text = the
space-joined texts of the group in order, and index = a running counter
starting at 1; a non-empty group remaining after the last word is emitted
as a final cue. -/
theorem claim2_cue_emission (ws : List Word) :
    (create_speaker_srt_cues ws).length = (segmentBlocks ws []).length ∧
    (∀ (i : Nat) (h : i < (create_speaker_srt_cues ws).length)
        (h' : i < (segmentBlocks ws []).length),
      (create_speaker_srt_cues ws).get ⟨i, h⟩ =
        { index := 1 + i
          start := ((((segmentBlocks ws []).get ⟨i, h'⟩).headD default).start : ℚ) / 1000
          «end» := ((((segmentBlocks ws []).get ⟨i, h'⟩).getLastD default).«end» : ℚ) / 1000
          text := joinTexts ((segmentBlocks ws []).get ⟨i, h'⟩) }) ∧
    (∀ (f : Word) (t : List Word) (c : Nat),
      segmentLoop [] (f :: t) c = [cueOfBlock c (f :: t)]) := by
  refine ⟨?_, ?_, fun f t c => rfl⟩
  · unfold create_speaker_srt_cues
    rw [segmentLoop_eq_cuesOfBlocks, cuesOfBlocks_length]
  · intro i h h'
    have heq : create_speaker_srt_cues ws = cuesOfBlocks 1 (segmentBlocks ws []) := by
      unfold create_speaker_srt_cues
      exact segmentLoop_eq_cuesOfBlocks ws [] 1
    have hlen : i < (cuesOfBlocks 1 (segmentBlocks ws [])).length := heq ▸ h
    have hb : (create_speaker_srt_cues ws).get ⟨i, h⟩ =
        (cuesOfBlocks 1 (segmentBlocks ws [])).get ⟨i, hlen⟩ :=
      List.get_of_eq heq ⟨i, h⟩
    rw [hb, cuesOfBlocks_get 1 (segmentBlocks ws []) i hlen h']
    rfl

/-- C2 witness: the single-word input, instantiated at index 0. -/
theorem claim2_cue_emission_witness :
    (create_speaker_srt_cues [⟨"hi", 0, 500⟩]).get ⟨0, by decide⟩ =
      { index := 1 + 0
        start := ((((segmentBlocks [⟨"hi", 0, 500⟩] []).get ⟨0, by decide⟩).headD
            default).start : ℚ) / 1000
        «end» := ((((segmentBlocks [⟨"hi", 0, 500⟩] []).get ⟨0, by decide⟩).getLastD
            default).«end» : ℚ) / 1000
        text := joinTexts ((segmentBlocks [⟨"hi", 0, 500⟩] []).get ⟨0, by decide⟩) } :=
  (claim2_cue_emission [⟨"hi", 0, 500⟩]).2.1 0 (by decide) (by decide)

/-- C5: the empty word sequence yields the empty cue sequence, with
emitted-cue count 0, as a normal result. -/
theorem claim5_empty_input :
    create_speaker_srt_cues [] = [] ∧ (create_speaker_srt_cues []).length = 0 :=
  ⟨rfl, rfl⟩

/-- C6: the groups underlying the emitted cues concatenate, in cue order,
to the input sequence (so every input word lies in exactly one cue, none
dropped, split or duplicated), each group is non-empty, and cues are in
one-to-one correspondence with the groups. -/
theorem claim6_words_partition (ws : List Word) :
    (segmentBlocks ws []).flatten = ws ∧
    (∀ b ∈ segmentBlocks ws [], b ≠ []) ∧
    (create_speaker_srt_cues ws).length = (segmentBlocks ws []).length := by
  refine ⟨by simpa using segmentBlocks_flatten ws [], segmentBlocks_ne_nil ws [], ?_⟩
  unfold create_speaker_srt_cues
  rw [segmentLoop_eq_cuesOfBlocks, cuesOfBlocks_length]

/-- C6 witness: concrete two-word input whose single group is the input. -/
theorem claim6_words_partition_witness :
    (segmentBlocks [⟨"hi", 0, 500⟩] []).flatten = [⟨"hi", 0, 500⟩] ∧
    ([(⟨"hi", 0, 500⟩ : Word)] : List Word) ≠ [] :=
  ⟨(claim6_words_partition [⟨"hi", 0, 500⟩]).1,
    (claim6_words_partition [⟨"hi", 0, 500⟩]).2.1 [⟨"hi", 0, 500⟩] (by
      show [⟨"hi", 0, 500⟩] ∈ [[(⟨"hi", 0, 500⟩ : Word)]]
      simp)⟩

/-- C8: the emitted cues' index values are exactly the contiguous sequence
`1, 2, …, N` where `N` is the number of emitted cues. -/
theorem claim8_index_contiguity (ws : List Word) :
    (create_speaker_srt_cues ws).map (fun cue => cue.index) =
      List.range' 1 (create_speaker_srt_cues ws).length := by
  unfold create_speaker_srt_cues
  rw [segmentLoop_eq_cuesOfBlocks, cuesOfBlocks_map_index, cuesOfBlocks_length]

theorem segmentBlocks_length_invariant (ws : List Word) :
    ∀ cur : List Word,
      (2 ≤ cur.length → (joinTexts cur).length ≤ MAX_CHARS) →
      ∀ b ∈ segmentBlocks ws cur, b.length = 1 ∨ (joinTexts b).length ≤ MAX_CHARS := by
  induction ws with
  | nil =>
    intro cur hcur b hb
    cases cur with
    | nil => simp [segmentBlocks] at hb
    | cons f t =>
      simp [segmentBlocks] at hb
      subst hb
      cases t with
      | nil => exact Or.inl rfl
      | cons x xs => exact Or.inr (hcur (by simp [List.length_cons]))
  | cons w rest ih =>
    intro cur hcur b hb
    cases cur with
    | nil =>
      refine ih [w] ?_ b (by simpa [segmentBlocks] using hb)
      intro h2
      simp at h2
    | cons f t =>
      by_cases hs : shouldStartNewBlock (f :: t) w = true
      · rw [segmentBlocks, if_pos hs] at hb
        rcases List.mem_cons.mp hb with h | h
        · subst h
          cases t with
          | nil => exact Or.inl rfl
          | cons x xs => exact Or.inr (hcur (by simp [List.length_cons]))
        · refine ih [w] ?_ b h
          intro h2
          simp at h2
      · rw [segmentBlocks, if_neg hs] at hb
        refine ih ((f :: t) ++ [w]) ?_ b hb
        intro _
        have hlen := joinTexts_length_append (f :: t) w (by simp)
        rw [hlen]
        have hB : ¬ ((joinTexts (f :: t)).length + w.text.length + 1 > MAX_CHARS) :=
          fun hb2 => hs ((shouldStartNewBlock_eq_true_iff f t w).mpr (Or.inr (Or.inl hb2)))
        omega

/-- C7: a cue is split before the word that would push its joined text
past `MAX_CHARS`, so every emitted group of two or more words has joined
text length at most 80, while a group seeded by a single word becomes a
one-word cue whose text is that word's text, however long. -/
theorem claim7_length_bound (ws : List Word) :
    (∀ b ∈ segmentBlocks ws [], b.length = 1 ∨ (joinTexts b).length ≤ MAX_CHARS) ∧
    (∀ cue ∈ create_speaker_srt_cues ws,
      ∃ b ∈ segmentBlocks ws [], cue.text = joinTexts b ∧
        (b.length = 1 ∨ cue.text.length ≤ MAX_CHARS)) ∧
    (∀ w : Word, create_speaker_srt_cues [w] =
      [{ index := 1, start := (w.start : ℚ) / 1000, «end» := (w.«end» : ℚ) / 1000,
         text := w.text }]) := by
  have hmain := segmentBlocks_length_invariant ws [] (by intro h2; simp at h2)
  refine ⟨hmain, ?_, fun w => rfl⟩
  intro cue hcue
  rw [create_speaker_srt_cues, segmentLoop_eq_cuesOfBlocks] at hcue
  obtain ⟨b, hbmem, i, rfl⟩ := mem_cuesOfBlocks 1 (segmentBlocks ws []) _ hcue
  exact ⟨b, hbmem, rfl, hmain b hbmem⟩

/-- C7 witness: a single 87-character word still becomes a one-word cue. -/
theorem claim7_length_bound_witness :
    ([(⟨"abcdefghijklmnopqrstuvwxyzabcdefghijklmnopqrstuvwxyzabcdefghijklmnopqrstuvwxyzabcdefg",
        0, 100⟩ : Word)] : List Word).length = 1 ∨
      (joinTexts [⟨"abcdefghijklmnopqrstuvwxyzabcdefghijklmnopqrstuvwxyzabcdefghijklmnopqrstuvwxyzabcdefg",
        0, 100⟩]).length ≤ MAX_CHARS :=
  (claim7_length_bound
      [⟨"abcdefghijklmnopqrstuvwxyzabcdefghijklmnopqrstuvwxyzabcdefghijklmnopqrstuvwxyzabcdefg",
        0, 100⟩]).1
    [⟨"abcdefghijklmnopqrstuvwxyzabcdefghijklmnopqrstuvwxyzabcdefghijklmnopqrstuvwxyzabcdefg",
        0, 100⟩]
    (by
      show _ ∈ [[(⟨"abcdefghijklmnopqrstuvwxyzabcdefghijklmnopqrstuvwxyzabcdefghijklmnopqrstuvwxyzabcdefg",
        0, 100⟩ : Word)]]
      simp)

theorem segmentBlocks_duration_invariant (ws : List Word) :
    ∀ cur : List Word,
      (2 ≤ cur.length →
        (((List.getLastD cur default).«end» : ℚ) - ((List.headD cur default).start : ℚ)) / 1000 <
          MAX_DURATION_S) →
      ∀ b ∈ segmentBlocks ws cur, 2 ≤ b.length →
        (((List.getLastD b default).«end» : ℚ) - ((List.headD b default).start : ℚ)) / 1000 <
          MAX_DURATION_S := by
  induction ws with
  | nil =>
    intro cur hcur b hb
    cases cur with
    | nil => simp [segmentBlocks] at hb
    | cons f t =>
      simp [segmentBlocks] at hb
      subst hb
      exact hcur
  | cons w rest ih =>
    intro cur hcur b hb
    cases cur with
    | nil =>
      refine ih [w] ?_ b (by simpa [segmentBlocks] using hb)
      intro h2
      simp at h2
    | cons f t =>
      by_cases hs : shouldStartNewBlock (f :: t) w = true
      · rw [segmentBlocks, if_pos hs] at hb
        rcases List.mem_cons.mp hb with h | h
        · subst h
          exact hcur
        · refine ih [w] ?_ b h
          intro h2
          simp at h2
      · rw [segmentBlocks, if_neg hs] at hb
        refine ih ((f :: t) ++ [w]) ?_ b hb
        intro _
        have hD : ¬ (((w.«end» : ℚ) - (f.start : ℚ)) / 1000 ≥ MAX_DURATION_S) :=
          fun hd => hs ((shouldStartNewBlock_eq_true_iff f t w).mpr (Or.inr (Or.inr hd)))
        have hgl : List.getLastD ((f :: t) ++ [w]) default = w := List.getLastD_concat _ _ _
        have hhd : List.headD ((f :: t) ++ [w]) default = f := rfl
        rw [hgl, hhd]
        exact not_le.mp hD

/-- C10: every emitted cue of two or more words spans strictly less than
`MAX_DURATION_S` seconds from its first word's start to its last word's
end, while a cue consisting of a single seed word can span 7 seconds or
more (the duration check is never applied to the seed word). -/
theorem claim10_duration_bound (ws : List Word) :
    (∀ b ∈ segmentBlocks ws [], 2 ≤ b.length →
      (((List.getLastD b default).«end» : ℚ) - ((List.headD b default).start : ℚ)) / 1000 <
        MAX_DURATION_S) ∧
    create_speaker_srt_cues [⟨"x", 0, 8000⟩] = [cueOfBlock 1 [⟨"x", 0, 8000⟩]] ∧
    ((((⟨"x", 0, 8000⟩ : Word).«end» : ℚ) - ((⟨"x", 0, 8000⟩ : Word).start : ℚ)) / 1000 ≥
      MAX_DURATION_S) := by
  refine ⟨segmentBlocks_duration_invariant ws [] (by intro h2; simp at h2), rfl, ?_⟩
  show (((8000 : ℕ) : ℚ) - ((0 : ℕ) : ℚ)) / 1000 ≥ MAX_DURATION_S
  rw [MAX_DURATION_S]
  norm_num

/-- C10 witness: a two-word cue (gap 0.1 s, span 0.3 s) stays under the
duration bound. -/
theorem claim10_duration_bound_witness :
    (((List.getLastD [(⟨"a", 0, 100⟩ : Word), ⟨"b", 200, 300⟩] default).«end» : ℚ) -
      ((List.headD [(⟨"a", 0, 100⟩ : Word), ⟨"b", 200, 300⟩] default).start : ℚ)) / 1000 <
      MAX_DURATION_S := by
  have hss : shouldStartNewBlock [⟨"a", 0, 100⟩] ⟨"b", 200, 300⟩ = false := by
    apply Bool.eq_false_iff.mpr
    intro h
    rw [shouldStartNewBlock_eq_true_iff] at h
    rcases h with h | h | h
    · rw [MAX_PAUSE_S] at h
      norm_num at h
    · exact absurd h (by decide)
    · rw [MAX_DURATION_S] at h
      norm_num at h
  have hblocks : segmentBlocks [⟨"a", 0, 100⟩, ⟨"b", 200, 300⟩] [] =
      [[⟨"a", 0, 100⟩, ⟨"b", 200, 300⟩]] := by
    simp [segmentBlocks, hss]
  exact (claim10_duration_bound [⟨"a", 0, 100⟩, ⟨"b", 200, 300⟩]).1
    [⟨"a", 0, 100⟩, ⟨"b", 200, 300⟩] (by rw [hblocks]; simp) (by simp)

/-- C9: with words in non-decreasing start order, each ending no earlier
than it starts, every emitted cue satisfies start ≤ end. -/
theorem claim9_start_le_end (ws : List Word)
    (hsort : List.Chain' (fun u v => u.start ≤ v.start) ws)
    (hwf : ∀ w ∈ ws, w.start ≤ w.«end») :
    ∀ cue ∈ create_speaker_srt_cues ws, cue.start ≤ cue.«end» := by
  intro cue hcue
  rw [create_speaker_srt_cues, segmentLoop_eq_cuesOfBlocks] at hcue
  obtain ⟨b, hbmem, i, rfl⟩ := mem_cuesOfBlocks 1 (segmentBlocks ws []) _ hcue
  have hbne : b ≠ [] := segmentBlocks_ne_nil ws [] b hbmem
  obtain ⟨f, t, rfl⟩ : ∃ f t, b = f :: t := by
    cases b with
    | nil => exact absurd rfl hbne
    | cons f t => exact ⟨f, t, rfl⟩
  have hsub : List.Sublist (f :: t) ws := by
    have hfl := segmentBlocks_flatten ws []
    have hsj := List.sublist_flatten_of_mem hbmem
    rw [hfl] at hsj
    simpa using hsj
  haveI : IsTrans Word (fun u v => u.start ≤ v.start) :=
    ⟨fun _ _ _ h1 h2 => le_trans h1 h2⟩
  have hpw : List.Pairwise (fun u v => u.start ≤ v.start) (f :: t) :=
    (List.chain'_iff_pairwise.mp hsort).sublist hsub
  have hlast_mem : t.getLastD f ∈ f :: t := List.getLastD_mem_cons t f
  have h1 : f.start ≤ (t.getLastD f).start := by
    rcases List.mem_cons.mp hlast_mem with h | h
    · rw [h]
    · exact (List.pairwise_cons.mp hpw).1 _ h
  have h2 : (t.getLastD f).start ≤ (t.getLastD f).«end» :=
    hwf _ (hsub.subset hlast_mem)
  have h3 : (f.start : ℚ) ≤ ((t.getLastD f).«end» : ℚ) := by
    exact_mod_cast le_trans h1 h2
  show ((List.headD (f :: t) default).start : ℚ) / 1000 ≤
    ((List.getLastD (f :: t) default).«end» : ℚ) / 1000
  have hgl : List.getLastD (f :: t) default = t.getLastD f := List.getLastD_cons _ _ _
  rw [hgl]
  exact (div_le_div_iff_of_pos_right (by norm_num)).mpr h3

/-- C9 witness: the single-word input. -/
theorem claim9_start_le_end_witness :
    (cueOfBlock 1 [⟨"hi", 0, 500⟩]).start ≤ (cueOfBlock 1 [⟨"hi", 0, 500⟩]).«end» :=
  claim9_start_le_end [⟨"hi", 0, 500⟩] (by simp)
    (by
      intro w hw
      rw [List.mem_singleton.mp hw]
      decide)
    (cueOfBlock 1 [⟨"hi", 0, 500⟩])
    (by
      show cueOfBlock 1 [⟨"hi", 0, 500⟩] ∈ [cueOfBlock 1 [⟨"hi", 0, 500⟩]]
      simp)

theorem segmentLoop_chain (ws : List Word) :
    ∀ (cur : List Word) (c : Nat),
      List.Chain' (fun u v => u.«end» ≤ v.start) (cur ++ ws) →
      List.Chain' (fun p q : Cue => p.«end» ≤ q.start) (segmentLoop ws cur c) := by
  induction ws with
  | nil =>
    intro cur c _
    cases cur with
    | nil => simp [segmentLoop]
    | cons f t => simp [segmentLoop]
  | cons w rest ih =>
    intro cur c h
    cases cur with
    | nil => exact ih [w] c (by simpa using h)
    | cons f t =>
      by_cases hs : shouldStartNewBlock (f :: t) w = true
      · rw [segmentLoop, if_pos hs]
        obtain ⟨h1, h2, h3⟩ := List.chain'_append.mp h
        refine List.chain'_cons'.mpr ⟨?_, ih [w] (c + 1) (by simpa using h2)⟩
        intro q hq
        have hq' : (segmentLoop rest [w] (c + 1)).head? = some q := Option.mem_def.mp hq
        have hh := segmentLoop_head_start rest w [] (c + 1)
        rw [hq'] at hh
        have hqs : q.start = (w.start : ℚ) / 1000 := by simpa using hh
        have hle : (t.getLastD f).«end» ≤ w.start :=
          h3 (t.getLastD f) (getLast?_cons_eq f t) w rfl
        show (cueOfBlock c (f :: t)).«end» ≤ q.start
        rw [hqs]
        show ((List.getLastD (f :: t) default).«end» : ℚ) / 1000 ≤ (w.start : ℚ) / 1000
        rw [List.getLastD_cons]
        exact (div_le_div_iff_of_pos_right (by norm_num)).mpr (by exact_mod_cast hle)
      · rw [segmentLoop, if_neg hs]
        refine ih ((f :: t) ++ [w]) c ?_
        have heq : ((f :: t) ++ [w]) ++ rest = (f :: t) ++ (w :: rest) := by simp
        rw [heq]
        exact h

/-- C3 counterexample: two words sorted by start with end ≥ start, where
the second word is nested inside the first's time range; the duration
trigger splits them and the two cues overlap (8 > 0.1). -/
theorem claim3_counterexample :
    (⟨"a", 0, 8000⟩ : Word).start ≤ (⟨"b", 100, 7900⟩ : Word).start ∧
    (⟨"a", 0, 8000⟩ : Word).start ≤ (⟨"a", 0, 8000⟩ : Word).«end» ∧
    (⟨"b", 100, 7900⟩ : Word).start ≤ (⟨"b", 100, 7900⟩ : Word).«end» ∧
    create_speaker_srt_cues [⟨"a", 0, 8000⟩, ⟨"b", 100, 7900⟩] =
      [cueOfBlock 1 [⟨"a", 0, 8000⟩], cueOfBlock 2 [⟨"b", 100, 7900⟩]] ∧
    ¬ ((cueOfBlock 1 [⟨"a", 0, 8000⟩]).«end» ≤ (cueOfBlock 2 [⟨"b", 100, 7900⟩]).start) := by
  have hs : shouldStartNewBlock [⟨"a", 0, 8000⟩] ⟨"b", 100, 7900⟩ = true := by
    rw [shouldStartNewBlock_eq_true_iff]
    refine Or.inr (Or.inr ?_)
    show (((7900 : ℕ) : ℚ) - ((0 : ℕ) : ℚ)) / 1000 ≥ MAX_DURATION_S
    rw [MAX_DURATION_S]
    norm_num
  refine ⟨by decide, by decide, by decide, ?_, ?_⟩
  · show segmentLoop [⟨"a", 0, 8000⟩, ⟨"b", 100, 7900⟩] [] 1 = _
    simp [segmentLoop, hs]
  · show ¬ (((List.getLastD [(⟨"a", 0, 8000⟩ : Word)] default).«end» : ℚ) / 1000 ≤
      ((List.headD [(⟨"b", 100, 7900⟩ : Word)] default).start : ℚ) / 1000)
    show ¬ (((8000 : ℕ) : ℚ) / 1000 ≤ ((100 : ℕ) : ℚ) / 1000)
    norm_num

/-- C3 amended: if in addition each word ends no later than the next word
starts (words do not overlap), then adjacent emitted cues never overlap:
each cue's end is at most the next cue's start. -/
theorem claim3_cues_no_overlap (ws : List Word)
    (h : List.Chain' (fun u v => u.«end» ≤ v.start) ws) :
    List.Chain' (fun p q : Cue => p.«end» ≤ q.start) (create_speaker_srt_cues ws) := by
  rw [create_speaker_srt_cues]
  exact segmentLoop_chain ws [] 1 (by simpa using h)

/-- C3 amended witness: two non-overlapping words split by the pause
trigger give non-overlapping cues. -/
theorem claim3_cues_no_overlap_witness :
    List.Chain' (fun p q : Cue => p.«end» ≤ q.start)
      (create_speaker_srt_cues [⟨"a", 0, 500⟩, ⟨"b", 2000, 2500⟩]) :=
  claim3_cues_no_overlap [⟨"a", 0, 500⟩, ⟨"b", 2000, 2500⟩]
    (List.chain'_pair.mpr (by decide))

theorem pyInt_of_nonneg (q : ℚ) (h : 0 ≤ q) : pyInt q = ⌊q⌋ :=
  if_neg (not_lt.mpr h)

theorem fdiv_cast_sixty (m : ℕ) : Int.fdiv (m : ℤ) (60 : ℤ) = ((m / 60 : ℕ) : ℤ) := by
  have h := Int.ofNat_fdiv m 60
  simpa using h.symm

theorem fmod_cast_sixty (m : ℕ) : Int.fmod (m : ℤ) (60 : ℤ) = ((m % 60 : ℕ) : ℤ) := by
  have h := Int.ofNat_fmod m 60
  simpa using h.symm

set_option maxRecDepth 40000 in
/-- C4: a non-negative number of seconds renders as `HH:MM:SS,mmm` —
hours = whole seconds / 3600 with no 24-hour clamp, minutes and seconds
zero-padded to two digits, milliseconds (`⌊fractional part × 1000⌋`, a
truncation, always in `[0, 1000)`) zero-padded to three digits; in
particular 3661.25 s renders as "01:01:01,250" and 0 s as "00:00:00,000",
and 90000 s shows hours 25 unclamped. -/
theorem claim4_time_format :
    (∀ q : ℚ, 0 ≤ q →
      format_srt_time q =
        intPad 2 ((⌊q⌋.toNat / 3600 : ℕ) : ℤ) ++ ":" ++
        intPad 2 ((⌊q⌋.toNat / 60 % 60 : ℕ) : ℤ) ++ ":" ++
        intPad 2 ((⌊q⌋.toNat % 60 : ℕ) : ℤ) ++ "," ++
        intPad 3 ⌊(q - (⌊q⌋ : ℚ)) * 1000⌋ ∧
      (0 : ℤ) ≤ ⌊(q - (⌊q⌋ : ℚ)) * 1000⌋ ∧ ⌊(q - (⌊q⌋ : ℚ)) * 1000⌋ < 1000) ∧
    (∀ n : ℕ, n < 100 → (intPad 2 (n : ℤ)).length = 2) ∧
    (∀ n : ℕ, n < 1000 → (intPad 3 (n : ℤ)).length = 3) ∧
    format_srt_time (14645 / 4) = "01:01:01,250" ∧
    format_srt_time 0 = "00:00:00,000" ∧
    format_srt_time 90000 = "25:00:00,000" := by
  have main : ∀ q : ℚ, 0 ≤ q →
      format_srt_time q =
        intPad 2 ((⌊q⌋.toNat / 3600 : ℕ) : ℤ) ++ ":" ++
        intPad 2 ((⌊q⌋.toNat / 60 % 60 : ℕ) : ℤ) ++ ":" ++
        intPad 2 ((⌊q⌋.toNat % 60 : ℕ) : ℤ) ++ "," ++
        intPad 3 ⌊(q - (⌊q⌋ : ℚ)) * 1000⌋ ∧
      (0 : ℤ) ≤ ⌊(q - (⌊q⌋ : ℚ)) * 1000⌋ ∧ ⌊(q - (⌊q⌋ : ℚ)) * 1000⌋ < 1000 := by
    intro q hq
    have hfq : pyInt q = ⌊q⌋ := pyInt_of_nonneg q hq
    have hfl0 : (0 : ℤ) ≤ ⌊q⌋ := Int.floor_nonneg.mpr hq
    have hfr0 : (0 : ℚ) ≤ (q - (⌊q⌋ : ℚ)) * 1000 :=
      mul_nonneg (sub_nonneg.mpr (Int.floor_le q)) (by norm_num)
    have hms0 : (0 : ℤ) ≤ ⌊(q - (⌊q⌋ : ℚ)) * 1000⌋ := Int.floor_nonneg.mpr hfr0
    refine ⟨?_, hms0, ?_⟩
    · show intPad 2 (Int.fdiv (Int.fdiv (pyInt q) 60) 60) ++ ":" ++
        intPad 2 (Int.fmod (Int.fdiv (pyInt q) 60) 60) ++ ":" ++
        intPad 2 (Int.fmod (pyInt q) 60) ++ "," ++
        intPad 3 (pyInt ((q - (pyInt q : ℚ)) * 1000)) = _
      rw [hfq, pyInt_of_nonneg _ hfr0]
      obtain ⟨n, hn⟩ : ∃ n : ℕ, ⌊q⌋ = (n : ℤ) :=
        ⟨⌊q⌋.toNat, (Int.toNat_of_nonneg hfl0).symm⟩
      rw [hn]
      simp only [Int.toNat_natCast]
      rw [fdiv_cast_sixty, fdiv_cast_sixty, fmod_cast_sixty, fmod_cast_sixty,
        Nat.div_div_eq_div_mul]
    · have hlt : q - (⌊q⌋ : ℚ) < 1 := by
        have := Int.lt_floor_add_one q
        linarith
      have h1 : (q - (⌊q⌋ : ℚ)) * 1000 < 1000 := by nlinarith
      exact Int.floor_lt.mpr (by exact_mod_cast h1)
  refine ⟨main, by decide, by decide, ?_, ?_, ?_⟩
  · obtain ⟨hfmt, _⟩ := main (14645 / 4) (by norm_num)
    rw [hfmt]
    have e1 : ⌊(14645 / 4 : ℚ)⌋ = 3661 := by norm_num
    rw [e1]
    have e2 : ⌊((14645 / 4 : ℚ) - ((3661 : ℤ) : ℚ)) * 1000⌋ = 250 := by norm_num
    rw [e2]
    decide
  · obtain ⟨hfmt, _⟩ := main 0 le_rfl
    rw [hfmt]
    have e1 : ⌊(0 : ℚ)⌋ = 0 := by norm_num
    rw [e1]
    have e2 : ⌊((0 : ℚ) - ((0 : ℤ) : ℚ)) * 1000⌋ = 0 := by norm_num
    rw [e2]
    decide
  · obtain ⟨hfmt, _⟩ := main 90000 (by norm_num)
    rw [hfmt]
    have e1 : ⌊(90000 : ℚ)⌋ = 90000 := by norm_num
    rw [e1]
    have e2 : ⌊((90000 : ℚ) - ((90000 : ℤ) : ℚ)) * 1000⌋ = 0 := by norm_num
    rw [e2]
    decide

/-- C4 witness: the millisecond part at 0 s is non-negative, and concrete
two- and three-digit paddings have the right width. -/
theorem claim4_time_format_witness :
    (0 : ℤ) ≤ ⌊((0 : ℚ) - (⌊(0 : ℚ)⌋ : ℚ)) * 1000⌋ ∧
    (intPad 2 ((5 : ℕ) : ℤ)).length = 2 ∧
    (intPad 3 ((17 : ℕ) : ℤ)).length = 3 :=
  ⟨(claim4_time_format.1 0 le_rfl).2.1,
    claim4_time_format.2.1 5 (by norm_num),
    claim4_time_format.2.2.1 17 (by norm_num)⟩
